import Mathlib

set_option maxRecDepth 100000

/-!
Verification of the htan-claude repository's portal query helpers
(`src/htan/query/portal.py`), credential resolution (`src/htan/config.py`)
and DRS URI validation (`src/htan/download/gen3.py`).

Python strings are embedded as `List Char`.  `str.upper` is embedded with
`Char.toUpper` (they agree on ASCII, which is all that the embedded code
manipulates), `str.split()` / `str.strip()` use `Char.isWhitespace`
(agreeing with Python on the ASCII whitespace appearing here), and
`json.loads` — Python standard library, not repository code — is an
explicit function parameter `jparse` of the embedded functions that use it.
-/

/-- Python `s.upper()` on a char list. -/
def upperL (l : List Char) : List Char := l.map Char.toUpper

/-- Whitespace test used by Python `str.split()` / `str.strip()`. -/
def wsChar (c : Char) : Bool := c.isWhitespace

/-- `lstartsWith p l` : `p` is an initial segment of `l` (Python `startswith`). -/
def lstartsWith : List Char → List Char → Bool
  | [], _ => true
  | _ :: _, [] => false
  | p :: ps, c :: cs => p = c && lstartsWith ps cs

/-- Substring containment, Python `pat in l`. -/
def containsSub (pat : List Char) : List Char → Bool
  | [] => lstartsWith pat []
  | c :: cs => lstartsWith pat (c :: cs) || containsSub pat cs

/-- Drop the initial segment `p` from `l`, or `none` if `l` does not start with `p`. -/
def dropPre : List Char → List Char → Option (List Char)
  | [], l => some l
  | _ :: _, [] => none
  | p :: ps, c :: cs => if p = c then dropPre ps cs else none

/-- Strip characters satisfying `p` from the right end (Python `rstrip`). -/
def rstripP (p : Char → Bool) (l : List Char) : List Char :=
  (l.reverse.dropWhile p).reverse

/-- Python `s.strip()`: whitespace removed from both ends. -/
def stripWs (l : List Char) : List Char :=
  (rstripP wsChar l).dropWhile wsChar

/-- Helper for Python `s.split()`: `acc` is the current word, reversed. -/
def pySplitAux : List Char → List Char → List (List Char)
  | [], acc => if acc = [] then [] else [acc.reverse]
  | c :: rest, acc =>
    if wsChar c then
      if acc = [] then pySplitAux rest [] else acc.reverse :: pySplitAux rest []
    else pySplitAux rest (c :: acc)

/-- Python `s.split()` (split on whitespace runs, no empty words). -/
def pySplit (l : List Char) : List (List Char) := pySplitAux l []

/-- `sep.join(words)` for char-list words. -/
def joinWith (sep : List Char) : List (List Char) → List Char
  | [] => []
  | [w] => w
  | w :: v :: ws => w ++ sep ++ joinWith sep (v :: ws)

/-- Helper for Python `s.split("\n")`: `acc` is the current segment, reversed. -/
def splitNlAux : List Char → List Char → List (List Char)
  | [], acc => [acc.reverse]
  | c :: rest, acc =>
    if c = '\n' then acc.reverse :: splitNlAux rest []
    else splitNlAux rest (c :: acc)

/-- Python `s.split("\n")` (keeps empty segments). -/
def splitNl (l : List Char) : List (List Char) := splitNlAux l []

/-- The whitespace-normalisation `" ".join(sql.upper().split())` used in
`validate_sql_safety` and `ensure_limit`. -/
def normWs (l : List Char) : List Char := joinWith [' '] (pySplit (upperL l))

/-- Regex word character, `\w` (ASCII part, enough for the SQL keywords). -/
def wordChar (c : Char) : Bool := c.isAlphanum || c = '_'

/-- A `\b` word boundary holds before the scan position given the previous
character (`none` at the start of the string). -/
def boundaryB : Option Char → Bool
  | none => true
  | some p => !wordChar p

/-- The keyword matches at the current position and is followed by a word
boundary (end of string or a non-word character). -/
def matchHere (kw l : List Char) : Bool :=
  match dropPre kw l with
  | none => false
  | some [] => true
  | some (c :: _) => !wordChar c

/-- Scan for `re.search(r"\b" + kw + r"\b", ·)`; `prev` is the character
before the scan position. `kw` consists of word characters. -/
def searchWordFrom (kw : List Char) : Option Char → List Char → Bool
  | _, [] => false
  | prev, c :: rest =>
    (boundaryB prev && matchHere kw (c :: rest)) || searchWordFrom kw (some c) rest

/-- `re.search(r"\b" + kw + r"\b", l)` for an all-word-character `kw`. -/
def searchWord (kw l : List Char) : Bool := searchWordFrom kw none l

/-- `BLOCKED_SQL_KEYWORDS` from `src/htan/query/portal.py`. -/
def BLOCKED_SQL_KEYWORDS : List (List Char) :=
  ["DELETE".data, "DROP".data, "UPDATE".data, "INSERT".data, "CREATE".data,
   "ALTER".data, "TRUNCATE".data, "MERGE".data, "GRANT".data, "REVOKE".data]

/-- `ALLOWED_SQL_STARTS` from `src/htan/query/portal.py`. -/
def ALLOWED_SQL_STARTS : List (List Char) :=
  ["SELECT".data, "WITH".data, "SHOW".data, "DESCRIBE".data, "EXPLAIN".data,
   "EXISTS".data]

/-- `validate_sql_safety` from `src/htan/query/portal.py` (lines 81-94).
Returns the pair `(safe, reason)`. -/
def validate_sql_safety (sql : List Char) : Bool × List Char :=
  match BLOCKED_SQL_KEYWORDS.find? (fun kw => searchWord kw (normWs sql)) with
  | some kw => (false, "Blocked SQL keyword: ".data ++ kw)
  | none =>
    if (pySplit (normWs sql)).headD [] ∈ ALLOWED_SQL_STARTS then
      (true, "OK".data)
    else (false, "SQL must start with one of: ".data ++
                 joinWith ", ".data ALLOWED_SQL_STARTS)

/-- `ensure_limit` from `src/htan/query/portal.py` (lines 109-116); the
stderr diagnostic is a side effect and is not modelled. -/
def ensure_limit (sql : List Char) (limit : Nat) : List Char :=
  if containsSub "LIMIT".data (normWs sql) then sql
  else rstripP (fun c => c = ';') (rstripP wsChar sql) ++
       "\nLIMIT ".data ++ (Nat.repr limit).data

/-- Python `s.replace(old, new)` for a single-character `old` (the
non-overlapping left-to-right scan is then exactly character-wise). -/
def replaceChar (old : Char) (new : List Char) : List Char → List Char
  | [] => []
  | c :: rest => (if c = old then new else [c]) ++ replaceChar old new rest

/-- The single-quote character, spelled by code point. -/
def qc : Char := Char.ofNat 39

/-- `escape_sql_string` from `src/htan/query/portal.py` (lines 104-106):
`s.replace("\\", "\\\\").replace("'", "\\'")`. -/
def escape_sql_string (s : List Char) : List Char :=
  replaceChar qc ['\\', qc] (replaceChar '\\' ['\\', '\\'] s)

/-- Reversal of the escaping, as the spec describes it: each
backslash-quote becomes a quote and each doubled backslash one backslash,
scanning left to right. -/
def unescapeSql : List Char → List Char
  | [] => []
  | [c] => [c]
  | a :: b :: rest =>
    if a = '\\' && (b = qc || b = '\\') then b :: unescapeSql rest
    else a :: unescapeSql (b :: rest)

/-- `parse_json_rows` from `src/htan/query/portal.py` (lines 229-252).
`json.loads` is the parameter `jparse` (`none` = raises `JSONDecodeError`);
the stderr warning for partially-JSON responses is a side effect and is not
modelled.  A raised `PortalError` is `.error` carrying its message. -/
def parse_json_rows {α : Type} (jparse : List Char → Option α)
    (text : List Char) : Except (List Char) (List α) :=
  if stripWs text = [] then .ok []
  else
    let kept := ((splitNl (stripWs text)).map stripWs).filter (fun l => !l.isEmpty)
    let rows := kept.filterMap jparse
    let errorLines := kept.filter (fun l => (jparse l).isNone)
    if rows.isEmpty && !errorLines.isEmpty then
      .error ("ClickHouse returned non-JSON response:\n".data ++
              joinWith "\n".data (errorLines.take 5))
    else .ok rows

/-- A JSON object (credential record) from `src/htan/config.py`, modelled
as an association list; the verified claims use only key presence and the
string value of `default_database`. -/
abbrev Cfg := List (List Char × List Char)

/-- `REQUIRED_KEYS` from `src/htan/config.py`. -/
def REQUIRED_KEYS : List (List Char) :=
  ["host".data, "port".data, "user".data, "password".data]

/-- Python `k in cfg` for a dict. -/
def hasKey (cfg : Cfg) (k : List Char) : Bool :=
  cfg.any (fun kv => decide (kv.1 = k))

/-- `_validate_config` from `src/htan/config.py`: the missing keys. -/
def validateConfig (cfg : Cfg) : List (List Char) :=
  REQUIRED_KEYS.filter (fun k => !hasKey cfg k)

/-- `_load_from_env` from `src/htan/config.py` (lines 43-58); `envVar` is
the value of `HTAN_PORTAL_CREDENTIALS` (`none` = unset). -/
def load_from_env (jparse : List Char → Option Cfg)
    (envVar : Option (List Char)) : Option Cfg :=
  match envVar with
  | none => none
  | some raw =>
    if raw = [] then none
    else match jparse raw with
      | none => none
      | some cfg => if validateConfig cfg = [] then some cfg else none

/-- `_load_from_keychain` from `src/htan/config.py` (lines 61-98);
`keychain` is the keychain tool's stdout, with `none` covering every
failure path (unsupported platform, lookup failure, timeout, OSError). -/
def load_from_keychain (jparse : List Char → Option Cfg)
    (keychain : Option (List Char)) : Option Cfg :=
  match keychain with
  | none => none
  | some out =>
    let raw := stripWs out
    if raw = [] then none
    else match jparse raw with
      | none => none
      | some cfg => if validateConfig cfg = [] then some cfg else none

/-- `_load_from_file` from `src/htan/config.py` (lines 101-117);
`contents` is the config file's text (`none` = missing or unreadable). -/
def load_from_file (jparse : List Char → Option Cfg)
    (contents : Option (List Char)) : Option Cfg :=
  match contents with
  | none => none
  | some text =>
    match jparse text with
    | none => none
    | some cfg => if validateConfig cfg = [] then some cfg else none

/-- The `ConfigError` message raised when all three tiers fail
(`src/htan/config.py` lines 206-214). -/
def portalNotConfiguredMsg : List Char :=
  ("Portal credentials not configured.\n\nOptions:\n  1. Run /htan:setup to auto-configure (recommended)\n  2. Set HTAN_PORTAL_CREDENTIALS env var (JSON string, for Cowork)\n  3. Create ~/.config/htan-skill/portal.json manually\n\nPortal credentials require HTAN Claude Skill Users team membership:\n  https://www.synapse.org/Team:3574960").data

/-- `load_portal_config` from `src/htan/config.py` (lines 174-214):
3-tier resolution; a raised `ConfigError` is `.error` with its message. -/
def load_portal_config (jparse : List Char → Option Cfg)
    (envVar keychain fileContents : Option (List Char)) :
    Except (List Char) Cfg :=
  match load_from_env jparse envVar with
  | some cfg => .ok cfg
  | none =>
    match load_from_keychain jparse keychain with
    | some cfg => .ok cfg
    | none =>
      match load_from_file jparse fileContents with
      | some cfg => .ok cfg
      | none => .error portalNotConfiguredMsg

/-- `get_default_database` from `src/htan/config.py` (lines 229-241). -/
def get_default_database (cfg : Cfg) : Option (List Char) :=
  let db := ((cfg.find? (fun kv => decide (kv.1 = "default_database".data))).map
      (fun kv => kv.2)).getD "auto".data
  if db = "auto".data ∨ db = [] then none else some db

/-- Python string `<=`: lexicographic comparison on code points. -/
def lexLe : List Char → List Char → Bool
  | [], _ => true
  | _ :: _, [] => false
  | a :: xs, b :: ys =>
    if a.toNat < b.toNat then true
    else if b.toNat < a.toNat then false
    else lexLe xs ys

/-- Insert into a descending-sorted list of strings. -/
def insertDesc (x : List Char) : List (List Char) → List (List Char)
  | [] => [x]
  | y :: ys => if lexLe y x then x :: y :: ys else y :: insertDesc x ys

/-- Python `sorted(·, reverse=True)` on strings: descending lexicographic
order is total and antisymmetric on char lists, so the sorted result is
unique and insertion sort embeds `sorted` exactly. -/
def sortDesc : List (List Char) → List (List Char)
  | [] => []
  | x :: xs => insertDesc x (sortDesc xs)

/-- The `htan_`-prefixed database names of `discover_database`: stripped
non-empty response lines filtered by the naming prefix (portal.py lines
269-270). -/
def htanNames (resp : List Char) : List (List Char) :=
  (((splitNl (stripWs resp)).map stripWs).filter (fun l => !l.isEmpty)).filter
    (fun db => lstartsWith "htan_".data db)

/-- `discover_database` from `src/htan/query/portal.py` (lines 255-279).
The network call `clickhouse_query("SHOW DATABASES LIKE 'htan_%'", ...)` is
the parameter `qres`: `.error ()` for a raised exception, `.ok resp` for
the raw TabSeparated response; the stderr diagnostic is not modelled. -/
def discover_database (cfg : Cfg) (qres : Except Unit (List Char)) :
    Option (List Char) :=
  match qres with
  | .error _ => get_default_database cfg
  | .ok resp =>
    if stripWs resp = [] then get_default_database cfg
    else
      match sortDesc (htanNames resp) with
      | latest :: _ => some latest
      | [] => get_default_database cfg

/-- Character class `[a-zA-Z0-9._/\-]` of `DRS_URI_PATTERN` and
`GUID_PATTERN` (`src/htan/download/gen3.py` lines 24-25). -/
def guidChar (c : Char) : Bool :=
  c.isAlphanum || c = '.' || c = '_' || c = '/' || c = '-'

/-- First alternative of the host group in `DRS_URI_PATTERN`. -/
def drsHost1 : List Char := "drs://dg.4DFC/".data

/-- Second alternative of the host group in `DRS_URI_PATTERN`. -/
def drsHost2 : List Char := "drs://nci-crdc.datacommons.io/dg.4DFC/".data

/-- Drop one trailing newline if present: Python `re`'s `$` matches at the
end of the string or just before one final newline. -/
def dropFinalNl (r : List Char) : List Char :=
  match r.reverse with
  | c :: t => if c = '\n' then t.reverse else r
  | [] => r

/-- Rest of the URI after the host: `[a-zA-Z0-9._/\-]+$`, i.e. a non-empty
all-`guidChar` run, optionally followed by one final newline. -/
def guidTailOk (r : List Char) : Bool :=
  let g := dropFinalNl r
  !g.isEmpty && g.all guidChar

/-- One alternative of `DRS_URI_PATTERN`: the host literal followed by a
matching tail. -/
def drsBranch (pre l : List Char) : Bool :=
  match dropPre pre l with
  | some r => guidTailOk r
  | none => false

/-- The language of `re.match(DRS_URI_PATTERN, ·)`
(`src/htan/download/gen3.py` line 24). -/
def drsMatch (l : List Char) : Bool :=
  drsBranch drsHost1 l || drsBranch drsHost2 l

/-- The `ValueError` message of `_validate_drs_uri`. -/
def drsErrMsg (uri : List Char) : List Char :=
  "Invalid DRS URI ".data ++ [qc] ++ uri ++ [qc] ++
  ". Expected format: drs://dg.4DFC/<guid>".data

/-- `_validate_drs_uri` from `src/htan/download/gen3.py` (lines 28-31);
the raised `ValueError` is `.error` with its message. -/
def validate_drs_uri (uri : List Char) : Except (List Char) (List Char) :=
  if drsMatch uri then .ok uri else .error (drsErrMsg uri)

/-- The acceptance set exactly as claim C9 words it: `drs://dg.4DFC/<guid>`
or `drs://nci-crdc.datacommons.io/dg.4DFC/<guid>` with a non-empty GUID
over the GUID alphabet, and nothing after the GUID. -/
def drsSpecForm (l : List Char) : Bool :=
  (match dropPre drsHost1 l with
   | some r => !r.isEmpty && r.all guidChar
   | none => false) ||
  (match dropPre drsHost2 l with
   | some r => !r.isEmpty && r.all guidChar
   | none => false)

-- ===== Generic lemmas about the string machinery =====

theorem lstartsWith_self_append (p t : List Char) :
    lstartsWith p (p ++ t) = true := by
  induction p with
  | nil => rfl
  | cons c cs ih => simp [lstartsWith, ih]

theorem containsSub_of_starts {pat l : List Char}
    (h : lstartsWith pat l = true) : containsSub pat l = true := by
  cases l with
  | nil => simpa [containsSub] using h
  | cons c cs => simp [containsSub, h]

theorem containsSub_cons (pat : List Char) (c : Char) (l : List Char)
    (h : containsSub pat l = true) : containsSub pat (c :: l) = true := by
  simp [containsSub, h]

theorem containsSub_append_left (pat x l : List Char)
    (h : containsSub pat l = true) : containsSub pat (x ++ l) = true := by
  induction x with
  | nil => simpa using h
  | cons c cs ih => simpa [List.cons_append] using containsSub_cons pat c _ ih

theorem joinWith_cons (sep w : List Char) (ws : List (List Char))
    (h : ws ≠ []) : joinWith sep (w :: ws) = w ++ sep ++ joinWith sep ws := by
  cases ws with
  | nil => exact absurd rfl h
  | cons v vs => rfl

theorem lstartsWith_joinWith (sep w : List Char) (ws : List (List Char)) :
    lstartsWith w (joinWith sep (w :: ws)) = true := by
  cases ws with
  | nil => simpa using lstartsWith_self_append w []
  | cons v vs =>
    rw [joinWith_cons sep w (v :: vs) (by simp), List.append_assoc]
    exact lstartsWith_self_append w _

theorem containsSub_of_mem_joinWith (sep : List Char)
    (ws : List (List Char)) (w : List Char) (hm : w ∈ ws) :
    containsSub w (joinWith sep ws) = true := by
  induction ws with
  | nil => simp at hm
  | cons x xs ih =>
    rcases List.mem_cons.mp hm with rfl | hm'
    · exact containsSub_of_starts (lstartsWith_joinWith sep w xs)
    · have hxs : xs ≠ [] := by
        cases xs with
        | nil => simp at hm'
        | cons y ys => simp
      rw [joinWith_cons sep x xs hxs, List.append_assoc]
      exact containsSub_append_left w x _ (containsSub_append_left w sep _ (ih hm'))

-- ===== C6 : escape_sql_string round-trip =====

/-- The per-character action of the two sequential `replace` calls. -/
def escTok (c : Char) : List Char :=
  if c = '\\' then ['\\', '\\'] else if c = qc then ['\\', qc] else [c]

theorem replaceChar_append (old : Char) (new a b : List Char) :
    replaceChar old new (a ++ b) =
      replaceChar old new a ++ replaceChar old new b := by
  induction a with
  | nil => rfl
  | cons c rest ih => simp [replaceChar, ih]

theorem escape_cons (c : Char) (s : List Char) :
    escape_sql_string (c :: s) = escTok c ++ escape_sql_string s := by
  have hbq : ('\\' : Char) ≠ qc := by decide
  by_cases hb : c = '\\'
  · subst hb
    simp [escape_sql_string, replaceChar, escTok, replaceChar_append, hbq]
  · by_cases hq : c = qc
    · subst hq
      have hqb : qc ≠ '\\' := by decide
      simp [escape_sql_string, replaceChar, escTok, replaceChar_append, hqb]
    · simp [escape_sql_string, replaceChar, escTok, replaceChar_append, hb, hq]

theorem unescape_cons_of_ne (c : Char) (l : List Char) (h : c ≠ '\\') :
    unescapeSql (c :: l) = c :: unescapeSql l := by
  cases l with
  | nil => rfl
  | cons b t => simp [unescapeSql, h]

/-- C6: `escape_sql_string` round-trips: reversing the escaping (each
backslash-quote back to a quote, each doubled backslash back to one
backslash, left to right) recovers the original for every input, and
`O'Brien` escapes to `O\'Brien`. -/
theorem C6_escape_sql_roundtrip :
    (∀ s : List Char, unescapeSql (escape_sql_string s) = s) ∧
    escape_sql_string "O\x27Brien".data = "O\\\x27Brien".data := by
  constructor
  · intro s
    induction s with
    | nil => rfl
    | cons c rest ih =>
      rw [escape_cons]
      by_cases hb : c = '\\'
      · subst hb
        show unescapeSql ('\\' :: '\\' :: escape_sql_string rest) = _
        simpa [unescapeSql] using ih
      · by_cases hq : c = qc
        · subst hq
          show unescapeSql ('\\' :: qc :: escape_sql_string rest) = _
          simpa [unescapeSql] using ih
        · have htok : escTok c = [c] := by simp [escTok, hb, hq]
          rw [htok, List.singleton_append, unescape_cons_of_ne c _ hb, ih]
  · decide

-- ===== C3 / C4 : credential tier resolution =====

/-- C3: when the environment tier yields a valid record, resolution
returns exactly that record, even when the config file also yields a
valid, different record. -/
theorem C3_env_tier_wins :
    ∀ (jparse : List Char → Option Cfg)
      (envVar keychain fileContents : Option (List Char)) (cfg cfgFile : Cfg),
    load_from_env jparse envVar = some cfg →
    load_from_file jparse fileContents = some cfgFile →
    cfgFile ≠ cfg →
    load_portal_config jparse envVar keychain fileContents = Except.ok cfg := by
  intro jp e k f cfg cf he _ _
  simp [load_portal_config, he]

/-- Example credential record delivered by the environment tier. -/
def envCfgEx : Cfg :=
  [("host".data, "h1".data), ("port".data, "8443".data),
   ("user".data, "u1".data), ("password".data, "p1".data)]

/-- Example credential record held by the config file, different from
`envCfgEx`. -/
def fileCfgEx : Cfg :=
  [("host".data, "h2".data), ("port".data, "8443".data),
   ("user".data, "u2".data), ("password".data, "p2".data)]

/-- Example JSON parser: decodes the env-var payload to `envCfgEx` and the
file contents to `fileCfgEx`. -/
def jparseEx : List Char → Option Cfg := fun raw =>
  if raw = "ENV".data then some envCfgEx
  else if raw = "FILE".data then some fileCfgEx
  else none

theorem C3_env_tier_wins_witness :
    load_portal_config jparseEx (some "ENV".data) none (some "FILE".data) =
      Except.ok envCfgEx :=
  C3_env_tier_wins jparseEx (some "ENV".data) none (some "FILE".data)
    envCfgEx fileCfgEx (by decide) (by decide) (by decide)

/-- C4: `load_portal_config` fails with the `ConfigError` message exactly
when all three tiers yield no valid record, and that message mentions the
setup route, the environment variable, the config file path and the gated
access URL. -/
theorem C4_config_error_iff :
    ∀ (jparse : List Char → Option Cfg)
      (envVar keychain fileContents : Option (List Char)),
    (load_portal_config jparse envVar keychain fileContents =
        Except.error portalNotConfiguredMsg ↔
      load_from_env jparse envVar = none ∧
      load_from_keychain jparse keychain = none ∧
      load_from_file jparse fileContents = none) ∧
    containsSub "/htan:setup".data portalNotConfiguredMsg = true ∧
    containsSub "HTAN_PORTAL_CREDENTIALS".data portalNotConfiguredMsg = true ∧
    containsSub "~/.config/htan-skill/portal.json".data
      portalNotConfiguredMsg = true ∧
    containsSub "https://www.synapse.org/Team:3574960".data
      portalNotConfiguredMsg = true := by
  intro jp e k f
  refine ⟨⟨?_, ?_⟩, by decide, by decide, by decide, by decide⟩
  · intro h
    cases he : load_from_env jp e with
    | some c => simp [load_portal_config, he] at h
    | none =>
      cases hk : load_from_keychain jp k with
      | some c => simp [load_portal_config, he, hk] at h
      | none =>
        cases hf : load_from_file jp f with
        | some c => simp [load_portal_config, he, hk, hf] at h
        | none => exact ⟨rfl, rfl, rfl⟩
  · rintro ⟨h1, h2, h3⟩
    simp [load_portal_config, h1, h2, h3]

-- ===== Word-boundary search lemmas (for C1, C2, C10) =====

theorem dropPre_self (p l : List Char) : dropPre p (p ++ l) = some l := by
  induction p with
  | nil => rfl
  | cons c cs ih => simp [dropPre, ih]

theorem dropPre_eq_some {p l r : List Char} (h : dropPre p l = some r) :
    l = p ++ r := by
  induction p generalizing l with
  | nil =>
    simp only [dropPre, Option.some.injEq] at h
    simpa using h
  | cons c cs ih =>
    cases l with
    | nil => simp [dropPre] at h
    | cons d ds =>
      by_cases hcd : c = d
      · subst hcd
        simp only [dropPre, if_pos rfl] at h
        simpa using ih h
      · simp [dropPre, hcd] at h

theorem matchHere_self (kw t : List Char)
    (ht : t = [] ∨ ∃ c t2, t = c :: t2 ∧ wordChar c = false) :
    matchHere kw (kw ++ t) = true := by
  rcases ht with rfl | ⟨c, t2, rfl, hc⟩
  · unfold matchHere
    rw [dropPre_self]
  · unfold matchHere
    rw [dropPre_self]
    simpa using hc

/-- The last character of `a` (or `p` if `a` is empty): the previous
character that a scan reaching past `a` remembers. -/
def lastO (p : Option Char) : List Char → Option Char
  | [] => p
  | c :: r => lastO (some c) r

theorem lastO_append_last (p : Option Char) (a : List Char) (c : Char) :
    lastO p (a ++ [c]) = some c := by
  induction a generalizing p with
  | nil => rfl
  | cons d ds ih => simpa [lastO] using ih (some d)

theorem searchWordFrom_append {kw : List Char} (a : List Char)
    (p : Option Char) (l : List Char)
    (h : searchWordFrom kw (lastO p a) l = true) :
    searchWordFrom kw p (a ++ l) = true := by
  induction a generalizing p with
  | nil => simpa [lastO] using h
  | cons c rest ih =>
    show searchWordFrom kw p (c :: (rest ++ l)) = true
    rw [searchWordFrom, Bool.or_eq_true]
    right
    exact ih (some c) h

theorem word_in_join_search (kw : List Char) (hkw : kw ≠ [])
    (ws : List (List Char)) (p : Option Char) (hb : boundaryB p = true)
    (hm : kw ∈ ws) :
    searchWordFrom kw p (joinWith [' '] ws) = true := by
  induction ws generalizing p with
  | nil => simp at hm
  | cons w xs ih =>
    rcases List.mem_cons.mp hm with rfl | hm'
    · obtain ⟨c, kr, rfl⟩ : ∃ c kr, kw = c :: kr := by
        cases kw with
        | nil => exact absurd rfl hkw
        | cons c kr => exact ⟨c, kr, rfl⟩
      cases xs with
      | nil =>
        show searchWordFrom (c :: kr) p (c :: kr) = true
        have hmh : matchHere (c :: kr) (c :: kr) = true := by
          have := matchHere_self (c :: kr) [] (Or.inl rfl)
          simpa using this
        rw [searchWordFrom, Bool.or_eq_true]
        left
        simp [hb, hmh]
      | cons y ys =>
        rw [joinWith_cons [' '] (c :: kr) (y :: ys) (by simp)]
        rw [List.append_assoc]
        rw [show ([' '] ++ joinWith [' '] (y :: ys)) =
          ' ' :: joinWith [' '] (y :: ys) from rfl]
        rw [List.cons_append]
        rw [searchWordFrom, Bool.or_eq_true]
        left
        rw [hb, Bool.true_and]
        show matchHere (c :: kr)
          ((c :: kr) ++ (' ' :: joinWith [' '] (y :: ys))) = true
        exact matchHere_self (c :: kr) _ (Or.inr ⟨' ', _, rfl, by decide⟩)
    · have hxs : xs ≠ [] := by
        cases xs with
        | nil => simp at hm'
        | cons y ys => simp
      rw [joinWith_cons [' '] w xs hxs]
      apply searchWordFrom_append
      rw [lastO_append_last]
      exact ih (some ' ') (by decide) hm'

-- ===== Words of a split are non-empty and whitespace-free =====

theorem pySplitAux_words_prop :
    ∀ (l acc : List Char), (∀ c ∈ acc, wsChar c = false) →
    ∀ w ∈ pySplitAux l acc, w ≠ [] ∧ ∀ c ∈ w, wsChar c = false := by
  intro l
  induction l with
  | nil =>
    intro acc hacc w hw
    by_cases h : acc = []
    · simp [pySplitAux, h] at hw
    · simp only [pySplitAux, if_neg h, List.mem_singleton] at hw
      subst hw
      refine ⟨by simpa using h, ?_⟩
      intro c hc
      exact hacc c (by simpa using hc)
  | cons c rest ih =>
    intro acc hacc w hw
    by_cases hws : wsChar c = true
    · by_cases h : acc = []
      · simp only [pySplitAux, if_pos hws, if_pos h] at hw
        exact ih [] (by simp) w hw
      · simp only [pySplitAux, if_pos hws, if_neg h, List.mem_cons] at hw
        rcases hw with rfl | hw'
        · refine ⟨by simpa using h, ?_⟩
          intro d hd
          exact hacc d (by simpa using hd)
        · exact ih [] (by simp) w hw'
    · simp only [pySplitAux, if_neg hws] at hw
      refine ih (c :: acc) ?_ w hw
      intro d hd
      rcases List.mem_cons.mp hd with rfl | hd'
      · simpa using hws
      · exact hacc d hd'

theorem pySplit_words_prop (l : List Char) :
    ∀ w ∈ pySplit l, w ≠ [] ∧ ∀ c ∈ w, wsChar c = false :=
  pySplitAux_words_prop l [] (by simp)

theorem pySplitAux_word_pre (w : List Char) (hw : ∀ c ∈ w, wsChar c = false) :
    ∀ (l acc : List Char),
    pySplitAux (w ++ l) acc = pySplitAux l (w.reverse ++ acc) := by
  induction w with
  | nil => intro l acc; simp
  | cons c cs ih =>
    intro l acc
    have hc : wsChar c = false := hw c (by simp)
    have hcs : ∀ d ∈ cs, wsChar d = false := fun d hd => hw d (by simp [hd])
    show pySplitAux (c :: (cs ++ l)) acc = _
    rw [pySplitAux]
    rw [if_neg (by simp [hc])]
    rw [ih hcs l (c :: acc)]
    simp

theorem pySplit_joinWith (ws : List (List Char))
    (h : ∀ w ∈ ws, w ≠ [] ∧ ∀ c ∈ w, wsChar c = false) :
    pySplit (joinWith [' '] ws) = ws := by
  induction ws with
  | nil => rfl
  | cons w xs ih =>
    have hw := h w (by simp)
    cases xs with
    | nil =>
      show pySplitAux (joinWith [' '] [w]) [] = [w]
      have : joinWith [' '] [w] = w ++ [] := by simp [joinWith]
      rw [this, pySplitAux_word_pre w hw.2]
      simp [pySplitAux, hw.1]
    | cons y ys =>
      rw [joinWith_cons [' '] w (y :: ys) (by simp), List.append_assoc]
      have h1 : pySplit (w ++ ([' '] ++ joinWith [' '] (y :: ys))) =
          pySplitAux ([' '] ++ joinWith [' '] (y :: ys)) (w.reverse ++ []) := by
        unfold pySplit
        exact pySplitAux_word_pre w hw.2 _ []
      rw [h1]
      rw [show ([' '] ++ joinWith [' '] (y :: ys)) =
        ' ' :: joinWith [' '] (y :: ys) from rfl]
      rw [show (w.reverse ++ ([] : List Char)) = w.reverse from by simp]
      have h2 : pySplitAux (' ' :: joinWith [' '] (y :: ys)) w.reverse =
          w.reverse.reverse :: pySplitAux (joinWith [' '] (y :: ys)) [] := by
        simp only [pySplitAux, if_pos (show wsChar ' ' = true from by decide),
          if_neg (show ¬(w.reverse = []) from by simpa using hw.1)]
      rw [h2, List.reverse_reverse]
      rw [show pySplitAux (joinWith [' '] (y :: ys)) [] =
        pySplit (joinWith [' '] (y :: ys)) from rfl]
      rw [ih (fun v hv => h v (by simp [hv]))]

/-- Splitting the whitespace-normalised string recovers the words of the
uppercased original: `normalized.split() = sql.upper().split()`. -/
theorem pySplit_normWs (s : List Char) :
    pySplit (normWs s) = pySplit (upperL s) :=
  pySplit_joinWith (pySplit (upperL s)) (pySplit_words_prop (upperL s))

-- ===== C1 : the denylist gate =====

/-- C1 (amended): if a denylisted keyword `K` occurs as a standalone word
in the uppercased, whitespace-normalised SQL, the verdict is false and the
reason names the first denylisted keyword (in the fixed list order) that
matches — which is `K` itself whenever `K` is the earliest match. -/
theorem C1_denylist_rejects :
    ∀ (s K : List Char),
    K ∈ BLOCKED_SQL_KEYWORDS →
    K ∈ pySplit (upperL s) →
    (validate_sql_safety s).1 = false ∧
    (BLOCKED_SQL_KEYWORDS.find?
      (fun kw => searchWord kw (normWs s))).isSome = true ∧
    ∀ K0, BLOCKED_SQL_KEYWORDS.find?
        (fun kw => searchWord kw (normWs s)) = some K0 →
      (validate_sql_safety s).2 = "Blocked SQL keyword: ".data ++ K0 ∧
      searchWord K0 (normWs s) = true ∧ K0 ∈ BLOCKED_SQL_KEYWORDS := by
  intro s K hK hTok
  have hKne : K ≠ [] := by
    have hall : ∀ k ∈ BLOCKED_SQL_KEYWORDS, k ≠ [] := by decide
    exact hall K hK
  have hsearch : searchWord K (normWs s) = true := by
    unfold searchWord normWs
    exact word_in_join_search K hKne _ none rfl hTok
  have hSome : (BLOCKED_SQL_KEYWORDS.find?
      (fun kw => searchWord kw (normWs s))).isSome = true := by
    rw [List.find?_isSome]
    exact ⟨K, hK, hsearch⟩
  obtain ⟨K0, hK0⟩ := Option.isSome_iff_exists.mp hSome
  refine ⟨?_, hSome, ?_⟩
  · simp [validate_sql_safety, hK0]
  · intro K1 hK1
    have hp : searchWord K1 (normWs s) = true := by
      have hb := List.find?_some hK1
      simpa using hb
    refine ⟨?_, hp, List.mem_of_find?_eq_some hK1⟩
    simp [validate_sql_safety, hK1]

theorem C1_denylist_rejects_witness :
    (validate_sql_safety "DROP TABLE t".data).1 = false :=
  (C1_denylist_rejects "DROP TABLE t".data "DROP".data
    (by decide) (by decide)).1

/-- C1 as literally stated fails: in `DELETE DROP` the keyword `DROP`
occurs as a standalone word and the verdict is false, but the rejection
reason names `DELETE` and does not even contain `DROP`. -/
theorem C1_denylist_rejects_counterexample :
    "DROP".data ∈ BLOCKED_SQL_KEYWORDS ∧
    "DROP".data ∈ pySplit (upperL "DELETE DROP".data) ∧
    (validate_sql_safety "DELETE DROP".data).1 = false ∧
    (validate_sql_safety "DELETE DROP".data).2 =
      "Blocked SQL keyword: DELETE".data ∧
    containsSub "DROP".data
      (validate_sql_safety "DELETE DROP".data).2 = false := by
  decide

-- ===== C2 : the allowlist gate =====

/-- C2: a SQL string whose first whitespace-delimited token (after
uppercasing) is not allowlisted is rejected, regardless of denylist
status. -/
theorem C2_allowlist_gate :
    ∀ s : List Char,
    (pySplit (upperL s)).headD [] ∉ ALLOWED_SQL_STARTS →
    (validate_sql_safety s).1 = false := by
  intro s h
  cases hf : BLOCKED_SQL_KEYWORDS.find?
      (fun kw => searchWord kw (normWs s)) with
  | some kw => simp [validate_sql_safety, hf]
  | none =>
    simp only [validate_sql_safety, hf, pySplit_normWs]
    rw [if_neg h]

theorem C2_allowlist_gate_witness :
    (validate_sql_safety "DELETE FROM t".data).1 = false :=
  C2_allowlist_gate "DELETE FROM t".data (by decide)

-- ===== C10 : blank input is rejected at the gate =====

theorem wsChar_toUpper (c : Char) (h : wsChar c = true) : c.toUpper = c := by
  have h4 : c = ' ' ∨ c = '\t' ∨ c = '\x0d' ∨ c = '\n' := by
    simpa [wsChar, Char.isWhitespace, or_assoc] using h
  rcases h4 with rfl | rfl | rfl | rfl <;> decide

theorem pySplitAux_all_ws (l : List Char)
    (h : ∀ c ∈ l, wsChar c = true) : pySplitAux l [] = [] := by
  induction l with
  | nil => rfl
  | cons c rest ih =>
    have hc := h c (by simp)
    rw [show pySplitAux (c :: rest) [] = pySplitAux rest [] from by
      simp [pySplitAux, hc]]
    exact ih (fun d hd => h d (by simp [hd]))

/-- C10: for the empty string and every whitespace-only string, the safety
gate returns normally with a false verdict whose reason names the
allowlist. -/
theorem C10_blank_sql_rejected :
    ∀ s : List Char, (∀ c ∈ s, wsChar c = true) →
    validate_sql_safety s =
      (false, "SQL must start with one of: ".data ++
              joinWith ", ".data ALLOWED_SQL_STARTS) := by
  intro s h
  have hup : ∀ c ∈ upperL s, wsChar c = true := by
    intro c hc
    rcases List.mem_map.mp hc with ⟨d, hd, rfl⟩
    rw [wsChar_toUpper d (h d hd)]
    exact h d hd
  have hnorm : normWs s = [] := by
    unfold normWs pySplit
    rw [pySplitAux_all_ws (upperL s) hup]
    rfl
  simp only [validate_sql_safety, hnorm]
  decide

theorem C10_blank_sql_rejected_witness :
    validate_sql_safety "  ".data =
      (false, "SQL must start with one of: ".data ++
              joinWith ", ".data ALLOWED_SQL_STARTS) :=
  C10_blank_sql_rejected "  ".data (by decide)

-- ===== C5 : ensure_limit =====

theorem pySplitAux_ws_append (w : Char) (hw : wsChar w = true)
    (ys : List Char) :
    ∀ (xs acc : List Char),
    pySplitAux (xs ++ w :: ys) acc =
      pySplitAux (xs ++ [w]) acc ++ pySplitAux ys [] := by
  intro xs
  induction xs with
  | nil =>
    intro acc
    by_cases h : acc = []
    · simp [pySplitAux, hw, h]
    · simp [pySplitAux, hw, h]
  | cons c xs ih =>
    intro acc
    by_cases hc : wsChar c = true
    · by_cases h : acc = []
      · simp [pySplitAux, hc, h, ih]
      · simp [pySplitAux, hc, h, ih]
    · simp [pySplitAux, hc, ih]

theorem pySplitAux_LIMIT (ud : List Char) :
    pySplitAux ("LIMIT ".data ++ ud) [] = "LIMIT".data :: pySplitAux ud [] :=
  rfl

theorem ensure_limit_of_contains (x : List Char) (n : Nat)
    (h : containsSub "LIMIT".data (normWs x) = true) :
    ensure_limit x n = x := by
  simp [ensure_limit, h]

/-- The output of `ensure_limit` always contains a `LIMIT` token. -/
theorem ensure_limit_contains (s : List Char) (n : Nat) :
    containsSub "LIMIT".data (normWs (ensure_limit s n)) = true := by
  by_cases h : containsSub "LIMIT".data (normWs s) = true
  · rw [ensure_limit_of_contains s n h]
    exact h
  · have hf : containsSub "LIMIT".data (normWs s) = false := by simpa using h
    have he : ensure_limit s n =
        rstripP (fun c => c = ';') (rstripP wsChar s) ++
          "\nLIMIT ".data ++ (Nat.repr n).data := by
      simp [ensure_limit, hf]
    rw [he]
    have hsplit : pySplit (upperL
        (rstripP (fun c => c = ';') (rstripP wsChar s) ++
          "\nLIMIT ".data ++ (Nat.repr n).data)) =
        pySplitAux (upperL (rstripP (fun c => c = ';') (rstripP wsChar s)) ++
          ['\n']) [] ++
        ("LIMIT".data :: pySplitAux (upperL (Nat.repr n).data) []) := by
      unfold pySplit upperL
      rw [List.map_append, List.map_append]
      rw [show (List.map Char.toUpper "\nLIMIT ".data) = "\nLIMIT ".data from
        by decide]
      rw [List.append_assoc]
      rw [show ("\nLIMIT ".data ++ List.map Char.toUpper (Nat.repr n).data) =
        '\n' :: ("LIMIT ".data ++ List.map Char.toUpper (Nat.repr n).data)
        from rfl]
      rw [pySplitAux_ws_append '\n' (by decide) _ _ []]
      rw [pySplitAux_LIMIT]
    unfold normWs
    rw [hsplit]
    apply containsSub_of_mem_joinWith
    exact List.mem_append.mpr (Or.inr (by simp))

/-- C5: with no `LIMIT` token, `ensure_limit` strips trailing whitespace
and semicolons and appends exactly one `LIMIT n` clause; with a `LIMIT`
present it returns the input unchanged; and it is idempotent. -/
theorem C5_ensure_limit :
    ∀ (s : List Char) (n : Nat),
    (containsSub "LIMIT".data (normWs s) = false →
      ensure_limit s n =
        rstripP (fun c => c = ';') (rstripP wsChar s) ++
          "\nLIMIT ".data ++ (Nat.repr n).data) ∧
    (containsSub "LIMIT".data (normWs s) = true → ensure_limit s n = s) ∧
    ensure_limit (ensure_limit s n) n = ensure_limit s n := by
  intro s n
  exact ⟨fun hf => by simp [ensure_limit, hf],
    ensure_limit_of_contains s n,
    ensure_limit_of_contains (ensure_limit s n) n (ensure_limit_contains s n)⟩

theorem C5_ensure_limit_witness :
    ensure_limit "SELECT * FROM t".data 100 =
      "SELECT * FROM t\nLIMIT 100".data ∧
    ensure_limit "SELECT * FROM t LIMIT 5".data 100 =
      "SELECT * FROM t LIMIT 5".data := by
  constructor
  · exact ((C5_ensure_limit "SELECT * FROM t".data 100).1
      (by decide)).trans (by decide)
  · exact (C5_ensure_limit "SELECT * FROM t LIMIT 5".data 100).2.1 (by decide)

-- ===== C7 : parse_json_rows =====

theorem splitNlAux_first :
    ∀ (l acc : List Char), ∃ t,
    splitNlAux l acc =
      (acc.reverse ++ l.takeWhile (fun c => !decide (c = '\n'))) :: t := by
  intro l
  induction l with
  | nil => intro acc; exact ⟨[], by simp [splitNlAux]⟩
  | cons c rest ih =>
    intro acc
    by_cases hc : c = '\n'
    · subst hc
      refine ⟨splitNlAux rest [], ?_⟩
      simp [splitNlAux, List.takeWhile_cons]
    · obtain ⟨t, ht⟩ := ih (c :: acc)
      refine ⟨t, ?_⟩
      rw [show splitNlAux (c :: rest) acc = splitNlAux rest (c :: acc) from by
        simp [splitNlAux, hc]]
      rw [ht]
      simp [List.takeWhile_cons, hc]

theorem splitNl_first (l : List Char) :
    ∃ t, splitNl l = (l.takeWhile (fun c => !decide (c = '\n'))) :: t := by
  obtain ⟨t, ht⟩ := splitNlAux_first l []
  refine ⟨t, ?_⟩
  unfold splitNl
  rw [ht]
  simp

theorem dropWhile_head_false (p : Char → Bool) :
    ∀ (l : List Char) (c : Char) (r : List Char),
    l.dropWhile p = c :: r → p c = false := by
  intro l
  induction l with
  | nil => intro c r h; simp at h
  | cons a t ih =>
    intro c r h
    by_cases hp : p a = true
    · rw [List.dropWhile_cons, if_pos hp] at h
      exact ih c r h
    · rw [List.dropWhile_cons, if_neg hp] at h
      injection h with h1 h2
      subst h1
      simpa using hp

theorem dropWhile_append_single (p : Char → Bool) (c : Char)
    (hc : p c = false) :
    ∀ (a : List Char), (a ++ [c]).dropWhile p = a.dropWhile p ++ [c] := by
  intro a
  induction a with
  | nil => simp [List.dropWhile_cons, hc]
  | cons x xs ih =>
    by_cases hx : p x = true
    · simp [List.dropWhile_cons, hx, ih]
    · simp [List.dropWhile_cons, hx]

theorem rstripP_cons_of_false (p : Char → Bool) (c : Char) (t : List Char)
    (hc : p c = false) : rstripP p (c :: t) = c :: rstripP p t := by
  unfold rstripP
  rw [List.reverse_cons, dropWhile_append_single p c hc]
  simp

theorem stripWs_cons_of_false (c : Char) (t : List Char)
    (hc : wsChar c = false) : stripWs (c :: t) = c :: rstripP wsChar t := by
  unfold stripWs
  rw [rstripP_cons_of_false wsChar c t hc]
  rw [List.dropWhile_cons, if_neg (by simp [hc])]

theorem stripWs_head_ws (l : List Char) (h : stripWs l ≠ []) :
    ∃ c r, stripWs l = c :: r ∧ wsChar c = false := by
  cases hs : stripWs l with
  | nil => exact absurd hs h
  | cons c r =>
    refine ⟨c, r, rfl, ?_⟩
    unfold stripWs at hs
    exact dropWhile_head_false wsChar _ c r hs

/-- C7 (amended): a response whose non-empty lines all parse yields
exactly those parses, in order; a non-empty response none of whose lines
parses raises a `PortalError` whose message contains the first line of the
whitespace-trimmed text, itself whitespace-trimmed. -/
theorem C7_parse_json_rows :
    ∀ (α : Type) (jparse : List Char → Option α) (text : List Char),
    ((∀ l ∈ splitNl (stripWs text), stripWs l ≠ [] →
        (jparse (stripWs l)).isSome = true) →
      parse_json_rows jparse text =
        Except.ok ((((splitNl (stripWs text)).map stripWs).filter
          (fun l => !l.isEmpty)).filterMap jparse)) ∧
    ((stripWs text ≠ [] ∧
        ∀ l ∈ splitNl (stripWs text), jparse (stripWs l) = none) →
      ∃ m, parse_json_rows jparse text = Except.error m ∧
        containsSub (stripWs ((splitNl (stripWs text)).headD [])) m = true) := by
  intro α jparse text
  constructor
  · intro hall
    by_cases hs : stripWs text = []
    · rw [show parse_json_rows jparse text = Except.ok [] from by
        simp [parse_json_rows, hs]]
      rw [hs]
      rfl
    · have herr : (((splitNl (stripWs text)).map stripWs).filter
          (fun l => !l.isEmpty)).filter (fun l => (jparse l).isNone) = [] := by
        rw [List.filter_eq_nil_iff]
        intro a ha
        rw [List.mem_filter] at ha
        obtain ⟨ham, hane⟩ := ha
        obtain ⟨l0, hl0, rfl⟩ := List.mem_map.mp ham
        have hne0 : stripWs l0 ≠ [] := by
          intro hnil
          rw [hnil] at hane
          simp at hane
        have hsome := hall l0 hl0 hne0
        obtain ⟨v, hv⟩ := Option.isSome_iff_exists.mp hsome
        simp [hv]
      simp only [parse_json_rows]
      rw [if_neg hs, herr]
      simp
  · rintro ⟨hs, hall⟩
    obtain ⟨c0, r0, hsl, hc0⟩ := stripWs_head_ws text hs
    obtain ⟨t, hsp⟩ := splitNl_first (stripWs text)
    have hc0n : ¬(c0 = '\n') := by
      intro hh
      rw [hh] at hc0
      exact absurd hc0 (by decide)
    have htw : (stripWs text).takeWhile (fun c => !decide (c = '\n')) =
        c0 :: r0.takeWhile (fun c => !decide (c = '\n')) := by
      rw [hsl, List.takeWhile_cons]
      simp [hc0n]
    have hflstrip : stripWs ((splitNl (stripWs text)).headD []) =
        c0 :: rstripP wsChar (r0.takeWhile (fun c => !decide (c = '\n'))) := by
      rw [hsp]
      simp only [List.headD_cons]
      rw [htw, stripWs_cons_of_false c0 _ hc0]
    have hkept : ((splitNl (stripWs text)).map stripWs).filter
        (fun l => !l.isEmpty) =
        stripWs ((splitNl (stripWs text)).headD []) ::
          ((t.map stripWs).filter (fun l => !l.isEmpty)) := by
      conv_lhs => rw [hsp]
      rw [List.map_cons, List.filter_cons]
      rw [if_pos (by
        rw [show stripWs ((stripWs text).takeWhile (fun c => !decide (c = '\n'))) =
          stripWs ((splitNl (stripWs text)).headD []) from by rw [hsp]; rfl]
        rw [hflstrip]
        simp)]
      rw [show stripWs ((stripWs text).takeWhile (fun c => !decide (c = '\n'))) =
        stripWs ((splitNl (stripWs text)).headD []) from by rw [hsp]; rfl]
    have hrows : (((splitNl (stripWs text)).map stripWs).filter
        (fun l => !l.isEmpty)).filterMap jparse = [] := by
      rw [List.filterMap_eq_nil_iff]
      intro a ha
      rw [List.mem_filter] at ha
      obtain ⟨ham, -⟩ := ha
      obtain ⟨l0, hl0, rfl⟩ := List.mem_map.mp ham
      exact hall l0 hl0
    have herrs : (((splitNl (stripWs text)).map stripWs).filter
        (fun l => !l.isEmpty)).filter (fun l => (jparse l).isNone) =
        ((splitNl (stripWs text)).map stripWs).filter (fun l => !l.isEmpty) := by
      rw [List.filter_eq_self]
      intro a ha
      rw [List.mem_filter] at ha
      obtain ⟨ham, -⟩ := ha
      obtain ⟨l0, hl0, rfl⟩ := List.mem_map.mp ham
      simp [hall l0 hl0]
    refine ⟨"ClickHouse returned non-JSON response:\n".data ++
      joinWith "\n".data (((((splitNl (stripWs text)).map stripWs).filter
        (fun l => !l.isEmpty))).take 5), ?_, ?_⟩
    · simp only [parse_json_rows]
      rw [if_neg hs, hrows, herrs]
      rw [if_pos (by
        rw [hkept]
        simp)]
    · apply containsSub_append_left
      rw [hkept, List.take_succ_cons]
      exact containsSub_of_starts (lstartsWith_joinWith _ _ _)

deriving instance DecidableEq for Except

/-- First demo row: the dict decoded from the line with value 1. -/
def demoRow1 : List (List Char × Nat) := [("a".data, 1)]

/-- Second demo row: the dict decoded from the line with value 2. -/
def demoRow2 : List (List Char × Nat) := [("a".data, 2)]

/-- Concrete stand-in for `json.loads` on the two demo lines. -/
def demoParse : List Char → Option (List (List Char × Nat)) := fun l =>
  if l = "\x7b\"a\":1\x7d".data then some demoRow1
  else if l = "\x7b\"a\":2\x7d".data then some demoRow2
  else none

theorem C7_parse_json_rows_witness :
    parse_json_rows demoParse "\x7b\"a\":1\x7d\n\x7b\"a\":2\x7d\n".data =
      Except.ok [demoRow1, demoRow2] :=
  ((C7_parse_json_rows _ demoParse _).1 (by decide)).trans (by decide)

/-- C7 as literally stated fails on ` nope `: every line fails to parse
and a `PortalError` is raised, but its message holds the stripped line
`nope`, not the text's first line ` nope ` verbatim. -/
theorem C7_parse_json_rows_counterexample :
    parse_json_rows demoParse " nope ".data =
      Except.error "ClickHouse returned non-JSON response:\nnope".data ∧
    splitNl " nope ".data = [" nope ".data] ∧
    demoParse " nope ".data = none ∧
    containsSub " nope ".data
      "ClickHouse returned non-JSON response:\nnope".data = false := by
  decide

-- ===== C8 : discover_database =====

theorem lexLe_refl : ∀ l : List Char, lexLe l l = true := by
  intro l
  induction l with
  | nil => rfl
  | cons a xs ih => simp [lexLe, ih]

theorem lexLe_total : ∀ x y : List Char,
    lexLe x y = true ∨ lexLe y x = true := by
  intro x
  induction x with
  | nil => intro y; left; rfl
  | cons a xs ih =>
    intro y
    cases y with
    | nil => right; rfl
    | cons b ys =>
      rcases Nat.lt_trichotomy a.toNat b.toNat with h | h | h
      · left; simp [lexLe, h]
      · have hab : ¬a.toNat < b.toNat := by omega
        have hba : ¬b.toNat < a.toNat := by omega
        rcases ih ys with hx | hx
        · left; simp [lexLe, hab, hba, hx]
        · right; simp [lexLe, hab, hba, hx]
      · right; simp [lexLe, h]

theorem lexLe_trans : ∀ x y z : List Char,
    lexLe x y = true → lexLe y z = true → lexLe x z = true := by
  intro x
  induction x with
  | nil => intro y z _ _; rfl
  | cons a xs ih =>
    intro y z h1 h2
    cases y with
    | nil => simp [lexLe] at h1
    | cons b ys =>
      cases z with
      | nil => simp [lexLe] at h2
      | cons c zs =>
        simp only [lexLe] at h1 h2 ⊢
        by_cases hab : a.toNat < b.toNat
        · by_cases hbc : b.toNat < c.toNat
          · rw [if_pos (by omega : a.toNat < c.toNat)]
          · rw [if_neg hbc] at h2
            by_cases hcb : c.toNat < b.toNat
            · rw [if_pos hcb] at h2
              exact absurd h2 (by simp)
            · rw [if_pos (by omega : a.toNat < c.toNat)]
        · rw [if_neg hab] at h1
          by_cases hba : b.toNat < a.toNat
          · rw [if_pos hba] at h1
            exact absurd h1 (by simp)
          · rw [if_neg hba] at h1
            by_cases hbc : b.toNat < c.toNat
            · rw [if_pos (by omega : a.toNat < c.toNat)]
            · rw [if_neg hbc] at h2
              by_cases hcb : c.toNat < b.toNat
              · rw [if_pos hcb] at h2
                exact absurd h2 (by simp)
              · rw [if_neg hcb] at h2
                rw [if_neg (by omega : ¬a.toNat < c.toNat),
                  if_neg (by omega : ¬c.toNat < a.toNat)]
                exact ih ys zs h1 h2

theorem insertDesc_ne_nil (x : List Char) (l : List (List Char)) :
    insertDesc x l ≠ [] := by
  cases l with
  | nil => simp [insertDesc]
  | cons y ys =>
    unfold insertDesc
    by_cases h : lexLe y x = true
    · simp [h]
    · simp [h]

theorem mem_insertDesc (x y : List Char) (l : List (List Char)) :
    y ∈ insertDesc x l ↔ y = x ∨ y ∈ l := by
  induction l with
  | nil => simp [insertDesc]
  | cons z zs ih =>
    unfold insertDesc
    by_cases h : lexLe z x = true
    · simp [h, List.mem_cons]
    · have hf : lexLe z x = false := by simpa using h
      simp [hf, List.mem_cons, ih]
      tauto

theorem sortDesc_ne_nil (l : List (List Char)) (h : l ≠ []) :
    sortDesc l ≠ [] := by
  cases l with
  | nil => exact absurd rfl h
  | cons x xs => exact insertDesc_ne_nil x (sortDesc xs)

theorem mem_sortDesc (y : List Char) (l : List (List Char)) :
    y ∈ sortDesc l ↔ y ∈ l := by
  induction l with
  | nil => simp [sortDesc]
  | cons x xs ih =>
    unfold sortDesc
    rw [mem_insertDesc, ih, List.mem_cons]

theorem insertDesc_head (x : List Char) (m : List (List Char)) :
    (m = [] ∧ (insertDesc x m).headD [] = x) ∨
    (∃ h t, m = h :: t ∧
      (((insertDesc x m).headD [] = x ∧ lexLe h x = true) ∨
       ((insertDesc x m).headD [] = h ∧ lexLe x h = true))) := by
  cases m with
  | nil => exact Or.inl ⟨rfl, rfl⟩
  | cons h t =>
    refine Or.inr ⟨h, t, rfl, ?_⟩
    by_cases hle : lexLe h x = true
    · left
      constructor
      · simp [insertDesc, hle]
      · exact hle
    · right
      constructor
      · simp [insertDesc, hle]
      · rcases lexLe_total x h with hx | hx
        · exact hx
        · exact absurd hx hle

theorem sortDesc_head_ge :
    ∀ (l : List (List Char)) (y : List Char), y ∈ l →
    lexLe y ((sortDesc l).headD []) = true := by
  intro l
  induction l with
  | nil => intro y hy; simp at hy
  | cons x xs ih =>
    intro y hy
    show lexLe y ((insertDesc x (sortDesc xs)).headD []) = true
    rcases insertDesc_head x (sortDesc xs) with ⟨hm, hh⟩ | ⟨h, t, hm, hh⟩
    · have hxs : xs = [] := by
        cases xs with
        | nil => rfl
        | cons a b => exact absurd hm (sortDesc_ne_nil _ (by simp))
      subst hxs
      rw [hh]
      rcases List.mem_cons.mp hy with rfl | hy'
      · exact lexLe_refl y
      · simp at hy'
    · rcases List.mem_cons.mp hy with rfl | hy'
      · rcases hh with ⟨he, -⟩ | ⟨he, hxh⟩
        · rw [he]; exact lexLe_refl y
        · rw [he]; exact hxh
      · have hyh : lexLe y h = true := by
          have := ih y hy'
          rwa [hm, List.headD_cons] at this
        rcases hh with ⟨he, hhx⟩ | ⟨he, -⟩
        · rw [he]
          exact lexLe_trans y h x hyh hhx
        · rw [he]; exact hyh

/-- C8: `discover_database` returns the reverse-lexicographically greatest
`htan_`-prefixed name from the listing, and the configured default on an
empty response, a query error, or when no prefixed name is present. -/
theorem C8_discover_database :
    ∀ (cfg : Cfg) (qres : Except Unit (List Char)),
    (∀ e, qres = Except.error e →
      discover_database cfg qres = get_default_database cfg) ∧
    (∀ resp, qres = Except.ok resp → stripWs resp = [] →
      discover_database cfg qres = get_default_database cfg) ∧
    (∀ resp, qres = Except.ok resp → htanNames resp = [] →
      discover_database cfg qres = get_default_database cfg) ∧
    (∀ resp, qres = Except.ok resp → htanNames resp ≠ [] →
      discover_database cfg qres =
        some ((sortDesc (htanNames resp)).headD []) ∧
      (sortDesc (htanNames resp)).headD [] ∈ htanNames resp ∧
      ∀ y ∈ htanNames resp,
        lexLe y ((sortDesc (htanNames resp)).headD []) = true) := by
  intro cfg qres
  refine ⟨?_, ?_, ?_, ?_⟩
  · rintro e rfl
    rfl
  · rintro resp rfl hstrip
    simp [discover_database, hstrip]
  · rintro resp rfl hnames
    by_cases hstrip : stripWs resp = []
    · simp [discover_database, hstrip]
    · simp only [discover_database]
      rw [if_neg hstrip, hnames]
      rfl
  · rintro resp rfl hnames
    have hstrip : stripWs resp ≠ [] := by
      intro hnil
      apply hnames
      unfold htanNames
      rw [hnil]
      rfl
    have hsne := sortDesc_ne_nil (htanNames resp) hnames
    obtain ⟨a, t, hat⟩ : ∃ a t, sortDesc (htanNames resp) = a :: t := by
      cases hq : sortDesc (htanNames resp) with
      | nil => exact absurd hq hsne
      | cons a t => exact ⟨a, t, rfl⟩
    refine ⟨?_, ?_, ?_⟩
    · simp only [discover_database]
      rw [if_neg hstrip, hat, List.headD_cons]
    · rw [← mem_sortDesc, hat]
      simp
    · intro y hy
      exact sortDesc_head_ge (htanNames resp) y hy

theorem C8_discover_database_witness :
    discover_database [] (Except.error ()) = none ∧
    discover_database [] (Except.ok "htan_db1\nhtan_db2\nother".data) =
      some "htan_db2".data := by
  constructor
  · exact ((C8_discover_database [] (Except.error ())).1 () rfl).trans
      (by decide)
  · exact (((C8_discover_database []
      (Except.ok "htan_db1\nhtan_db2\nother".data)).2.2.2 _ rfl
        (by decide)).1).trans (by decide)

-- ===== C9 : DRS URI validation =====

theorem dropFinalNl_cases (r : List Char) :
    r = dropFinalNl r ∨ r = dropFinalNl r ++ ['\n'] := by
  rcases hr : r.reverse with _ | ⟨c, tl⟩
  · left
    unfold dropFinalNl
    rw [hr]
  · by_cases hc : c = '\n'
    · subst hc
      right
      have hd : dropFinalNl r = tl.reverse := by
        unfold dropFinalNl
        rw [hr]
        simp
      rw [hd]
      have hrr : r = ('\n' :: tl).reverse := by rw [← hr, List.reverse_reverse]
      rw [hrr]
      simp
    · left
      unfold dropFinalNl
      rw [hr]
      simp [hc]

theorem dropFinalNl_all_guid (g : List Char) (_hne : g ≠ [])
    (hall : g.all guidChar = true) : dropFinalNl g = g := by
  rcases hg : g.reverse with _ | ⟨c, tl⟩
  · unfold dropFinalNl
    rw [hg]
  · have hcg : guidChar c = true := by
      have hcm : c ∈ g := by
        rw [← List.mem_reverse, hg]
        simp
      exact List.all_eq_true.mp hall c hcm
    have hcn : ¬(c = '\n') := by
      intro hh
      rw [hh] at hcg
      exact absurd hcg (by decide)
    unfold dropFinalNl
    rw [hg]
    simp [hcn]

theorem dropFinalNl_append_nl (g : List Char) :
    dropFinalNl (g ++ ['\n']) = g := by
  have h : (g ++ ['\n']).reverse = '\n' :: g.reverse := by simp
  unfold dropFinalNl
  rw [h]
  simp

theorem list_isEmpty_false (g : List Char) (h : g ≠ []) :
    g.isEmpty = false := by
  cases g with
  | nil => exact absurd rfl h
  | cons a b => rfl

theorem drsBranch_of_guid (pre g : List Char) (hgne : g ≠ [])
    (hgall : g.all guidChar = true) : drsBranch pre (pre ++ g) = true := by
  unfold drsBranch
  rw [dropPre_self]
  simp only [guidTailOk]
  rw [dropFinalNl_all_guid g hgne hgall]
  simp [list_isEmpty_false g hgne, hgall]

theorem drsBranch_of_guid_nl (pre g : List Char) (hgne : g ≠ [])
    (hgall : g.all guidChar = true) :
    drsBranch pre (pre ++ (g ++ ['\n'])) = true := by
  unfold drsBranch
  rw [dropPre_self]
  simp only [guidTailOk]
  rw [dropFinalNl_append_nl]
  simp [list_isEmpty_false g hgne, hgall]

theorem drsBranch_inv (pre l : List Char) (h : drsBranch pre l = true) :
    ∃ g, g ≠ [] ∧ g.all guidChar = true ∧
      (l = pre ++ g ∨ l = pre ++ (g ++ ['\n'])) := by
  unfold drsBranch at h
  cases hd : dropPre pre l with
  | none => rw [hd] at h; simp at h
  | some r =>
    rw [hd] at h
    simp only [guidTailOk, Bool.and_eq_true] at h
    obtain ⟨h1, h2⟩ := h
    have hgne : dropFinalNl r ≠ [] := by
      intro hnil
      rw [hnil] at h1
      simp at h1
    have hl : l = pre ++ r := dropPre_eq_some hd
    rcases dropFinalNl_cases r with hr | hr
    · exact ⟨dropFinalNl r, hgne, h2, Or.inl (by rw [hl, ← hr])⟩
    · exact ⟨dropFinalNl r, hgne, h2, Or.inr (by rw [hl, ← hr])⟩

/-- C9 (amended): the validator accepts exactly the strings
`drs://dg.4DFC/<guid>` or `drs://nci-crdc.datacommons.io/dg.4DFC/<guid>`
with a non-empty GUID over the GUID alphabet, optionally followed by one
final newline (Python `$` matches before a final newline); on the claim's
four examples it behaves exactly as the claim says. -/
theorem C9_drs_validator :
    (∀ l : List Char, validate_drs_uri l = Except.ok l ↔
      ∃ g, g ≠ [] ∧ g.all guidChar = true ∧
        (l = drsHost1 ++ g ∨ l = drsHost2 ++ g ∨
         l = drsHost1 ++ (g ++ ['\n']) ∨ l = drsHost2 ++ (g ++ ['\n']))) ∧
    validate_drs_uri "drs://dg.4DFC/abc-123".data =
      Except.ok "drs://dg.4DFC/abc-123".data ∧
    validate_drs_uri "drs://nci-crdc.datacommons.io/dg.4DFC/abc-123".data =
      Except.ok "drs://nci-crdc.datacommons.io/dg.4DFC/abc-123".data ∧
    validate_drs_uri "drs://wrong.host/guid".data =
      Except.error (drsErrMsg "drs://wrong.host/guid".data) ∧
    validate_drs_uri "drs://dg.4DFC/".data =
      Except.error (drsErrMsg "drs://dg.4DFC/".data) := by
  refine ⟨?_, by decide, by decide, by decide, by decide⟩
  intro l
  have hok : validate_drs_uri l = Except.ok l ↔ drsMatch l = true := by
    unfold validate_drs_uri
    by_cases h : drsMatch l = true
    · simp [h]
    · simp [h]
  rw [hok]
  constructor
  · intro h
    unfold drsMatch at h
    rw [Bool.or_eq_true] at h
    rcases h with hb | hb
    · obtain ⟨g, hgne, hgall, hc⟩ := drsBranch_inv drsHost1 l hb
      rcases hc with hc | hc
      · exact ⟨g, hgne, hgall, Or.inl hc⟩
      · exact ⟨g, hgne, hgall, Or.inr (Or.inr (Or.inl hc))⟩
    · obtain ⟨g, hgne, hgall, hc⟩ := drsBranch_inv drsHost2 l hb
      rcases hc with hc | hc
      · exact ⟨g, hgne, hgall, Or.inr (Or.inl hc)⟩
      · exact ⟨g, hgne, hgall, Or.inr (Or.inr (Or.inr hc))⟩
  · rintro ⟨g, hgne, hgall, rfl | rfl | rfl | rfl⟩ <;>
      unfold drsMatch <;> rw [Bool.or_eq_true]
    · exact Or.inl (drsBranch_of_guid drsHost1 g hgne hgall)
    · exact Or.inr (drsBranch_of_guid drsHost2 g hgne hgall)
    · exact Or.inl (drsBranch_of_guid_nl drsHost1 g hgne hgall)
    · exact Or.inr (drsBranch_of_guid_nl drsHost2 g hgne hgall)

/-- C9 as literally stated fails: the validator also accepts a DRS URI
with one trailing newline, which is outside the claim's acceptance set
(`drsSpecForm`). -/
theorem C9_drs_validator_counterexample :
    validate_drs_uri "drs://dg.4DFC/abc-123\n".data =
      Except.ok "drs://dg.4DFC/abc-123\n".data ∧
    drsSpecForm "drs://dg.4DFC/abc-123\n".data = false := by
  decide
